import Mathlib

/- Verification of the signal-metrics and reference-waveform core of the
   ads1x15_comparison repository (src/signal_utils.py, src/plot_comparison.py).

   The embedding uses exact real numbers (ℝ) for the float computations, and
   embeds each numpy call by its documented mathematical meaning.  Calls that
   can raise (np.percentile on an empty array or an out-of-range percentile)
   are additionally embedded as Option-valued wrappers, where `none` means the
   call raises and `some` means it returns a value. -/

namespace ADS1x15

noncomputable section

/-- np.mean of a sequence: sum divided by length.  On an empty array numpy
emits a warning and returns NaN; only the returned-a-value/raised distinction
of that case is relied upon below, the NaN payload is represented by the junk
real 0 that Lean's division by zero yields. -/
def mean (s : List ℝ) : ℝ := s.sum / s.length

/-- signal_utils.remove_dc_bias: subtract the arithmetic mean from every
sample (signal - np.mean(signal)). -/
def remove_dc_bias (s : List ℝ) : List ℝ := s.map (fun x => x - mean s)

/-- signal_utils.calc_rms: square root of the mean of the squared bias-removed
samples (np.sqrt(np.mean(ac ** 2))). -/
def calc_rms (s : List ℝ) : ℝ :=
  Real.sqrt (mean ((remove_dc_bias s).map (fun x => x ^ 2)))

/-- np.percentile with numpy's default linear interpolation: sort the data,
set h = p/100·(n-1), and interpolate between the neighbouring order
statistics (indices clamped to the last element, reproducing numpy's
behaviour at h = n-1). -/
def percentile (s : List ℝ) (p : ℝ) : ℝ :=
  let a := s.insertionSort (· ≤ ·)
  let n := s.length
  let h : ℝ := p / 100 * ((n : ℝ) - 1)
  let j : ℕ := min (⌊h⌋).toNat (n - 1)
  let j1 : ℕ := min (j + 1) (n - 1)
  a.getD j 0 + (h - (j : ℝ)) * (a.getD j1 0 - a.getD j 0)

/-- signal_utils.calc_peak: percentile of the absolute values of the
bias-removed signal (np.percentile(np.abs(ac), percentile)). -/
def calc_peak (s : List ℝ) (p : ℝ) : ℝ :=
  percentile ((remove_dc_bias s).map (fun x => |x|)) p

/-- signal_utils.calc_peak_to_peak: difference of the signed percentiles p and
100-p of the bias-removed signal. -/
def calc_peak_to_peak (s : List ℝ) (p : ℝ) : ℝ :=
  percentile (remove_dc_bias s) p - percentile (remove_dc_bias s) (100 - p)

/-- signal_utils.CT_FS_VOLTAGE: full-scale secondary voltage of the CT. -/
def CT_FS_VOLTAGE : ℝ := 0.333

/-- signal_utils.vrms_to_current: vrms * i_primary / CT_FS_VOLTAGE. -/
def vrms_to_current (vrms i_primary : ℝ) : ℝ :=
  vrms * i_primary / CT_FS_VOLTAGE

/-- np.percentile raises on an empty array and on a percentile outside
[0, 100]; otherwise it returns the interpolated value. -/
def percentileE (s : List ℝ) (p : ℝ) : Option ℝ :=
  if s = [] ∨ p < 0 ∨ 100 < p then none else some (percentile s p)

/-- remove_dc_bias as actually called: np.mean never raises (it returns NaN on
an empty array with a warning), so the call always returns a value. -/
def remove_dc_biasE (s : List ℝ) : Option (List ℝ) := some (remove_dc_bias s)

/-- calc_rms as actually called: np.mean and np.sqrt never raise, so the call
always returns a value (NaN for empty input). -/
def calc_rmsE (s : List ℝ) : Option ℝ := some (calc_rms s)

/-- calc_peak as actually called: fails exactly when np.percentile raises. -/
def calc_peakE (s : List ℝ) (p : ℝ) : Option ℝ :=
  percentileE ((remove_dc_bias s).map (fun x => |x|)) p

/-- calc_peak_to_peak as actually called: fails exactly when either
np.percentile call raises. -/
def calc_peak_to_peakE (s : List ℝ) (p : ℝ) : Option ℝ :=
  (percentileE (remove_dc_bias s) p).bind (fun hi =>
    (percentileE (remove_dc_bias s) (100 - p)).map (fun lo => hi - lo))

/-- The parameter dict handed to plot_comparison.generate_reference, as built
by parse_signal_name: the "type", "freq_hz" and "vrms_v" keys are always
present there, the family-specific keys may be absent (`none`), and an
arbitrary dict may also lack the numeric keys. -/
structure Params where
  type : String
  freq_hz : Option ℝ
  vrms_v : Option ℝ
  duty_pct : Option ℝ
  mod_freq_hz : Option ℝ

/-- np.linspace(0, duration, n, endpoint=False): the grid k·duration/n. -/
def linspace (duration : ℝ) (n : ℕ) : List ℝ :=
  (List.range n).map (fun k : ℕ => (k : ℝ) * duration / (n : ℝ))

/-- Python's float modulo x % y for y > 0 (floor-based remainder). -/
def fmod (x y : ℝ) : ℝ := x - y * ⌊x / y⌋

/-- Raw (no DC removal) RMS used by generate_reference:
np.sqrt(np.mean(wave ** 2)). -/
def raw_rms (w : List ℝ) : ℝ := Real.sqrt (mean (w.map (fun x => x ^ 2)))

/-- The per-family unscaled wave of plot_comparison.generate_reference,
including the missing-key failures (`none` = KeyError / ValueError):
sine, square, triangle, leading-edge dimmer, 100%-depth AM sine. -/
def unscaled_wave (p : Params) (duration : ℝ) (nPoints : ℕ) : Option (List ℝ) :=
  p.freq_hz.bind (fun f =>
    let t := linspace duration nPoints
    if p.type = "sine" then
      some (t.map (fun x => Real.sin (2 * Real.pi * f * x)))
    else if p.type = "square" then
      some (t.map (fun x => Real.sign (Real.sin (2 * Real.pi * f * x))))
    else if p.type = "triangle" then
      some (t.map (fun x => 4 * |Int.fract (f * x) - 0.5| - 1))
    else if p.type = "dimmer" then
      p.duty_pct.map (fun duty =>
        t.map (fun x =>
          if fmod (2 * Real.pi * f * x) Real.pi ≥ Real.pi * (1 - duty / 100)
          then Real.sin (2 * Real.pi * f * x) else 0))
    else if p.type = "sine_mod" then
      p.mod_freq_hz.map (fun fm =>
        t.map (fun x =>
          Real.sin (2 * Real.pi * f * x) * (1 + Real.cos (2 * Real.pi * fm * x))))
    else none)

/-- plot_comparison.generate_reference: build the unscaled wave, then scale it
by vrms/raw_rms when the raw RMS is positive, else leave it unscaled; returns
the time grid and the wave, or fails (`none`) on a malformed descriptor. -/
def generate_reference (p : Params) (duration : ℝ) (nPoints : ℕ) :
    Option (List ℝ × List ℝ) :=
  p.vrms_v.bind (fun vrms =>
    (unscaled_wave p duration nPoints).map (fun wave =>
      (linspace duration nPoints,
        if raw_rms wave > 0 then wave.map (fun x => x * (vrms / raw_rms wave))
        else wave)))

/- List arithmetic helper lemmas. -/

theorem sum_map_add (l : List ℝ) (k : ℝ) :
    (l.map (fun x => x + k)).sum = l.sum + l.length * k := by
  induction l with
  | nil => simp
  | cons a l ih =>
    simp only [List.map_cons, List.sum_cons, ih, List.length_cons]
    push_cast
    ring

theorem sum_map_mul (l : List ℝ) (c : ℝ) :
    (l.map (fun x => x * c)).sum = l.sum * c := by
  induction l with
  | nil => simp
  | cons a l ih => simp [ih]; ring

theorem sum_of_all_eq (l : List ℝ) (x : ℝ) (h : ∀ a ∈ l, a = x) :
    l.sum = l.length * x := by
  induction l with
  | nil => simp
  | cons a l ih =>
    have ha : a = x := h a (by simp)
    have hl : l.sum = l.length * x := ih (fun b hb => h b (by simp [hb]))
    simp only [List.sum_cons, List.length_cons, ha, hl]
    push_cast
    ring

theorem mean_map_add (l : List ℝ) (k : ℝ) (h : l ≠ []) :
    mean (l.map (fun x => x + k)) = mean l + k := by
  have hlen : (l.length : ℝ) ≠ 0 := by
    have := List.length_pos.mpr h
    positivity
  simp only [mean, List.length_map, sum_map_add]
  field_simp
  ring

theorem mean_map_mul (l : List ℝ) (c : ℝ) :
    mean (l.map (fun x => x * c)) = mean l * c := by
  simp only [mean, List.length_map, sum_map_mul]
  ring

theorem mean_zeros (l : List ℝ) (h : ∀ a ∈ l, a = 0) : mean l = 0 := by
  simp [mean, sum_of_all_eq l 0 h]

theorem getD_zeros (l : List ℝ) (i : ℕ) (h : ∀ a ∈ l, a = 0) :
    l.getD i 0 = 0 := by
  induction l generalizing i with
  | nil => simp
  | cons a l ih =>
    cases i with
    | zero => simpa using h a (by simp)
    | succ n => simpa using ih n (fun b hb => h b (by simp [hb]))

theorem percentile_zeros (l : List ℝ) (p : ℝ) (h : ∀ a ∈ l, a = 0) :
    percentile l p = 0 := by
  have hmem : ∀ b ∈ l.insertionSort (· ≤ ·), b = 0 := fun b hb =>
    h b ((List.perm_insertionSort _ l).mem_iff.mp hb)
  simp only [percentile]
  rw [getD_zeros _ _ hmem, getD_zeros _ _ hmem]
  ring

/-- Claim C7: adding a constant to every sample leaves calc_rms unchanged,
because the DC bias removal subtracts the shifted mean. -/
theorem C7_rms_shift_invariant (s : List ℝ) (k : ℝ) (h : s ≠ []) :
    calc_rms (s.map (fun x => x + k)) = calc_rms s := by
  have hb : remove_dc_bias (s.map (fun x => x + k)) = remove_dc_bias s := by
    simp only [remove_dc_bias, mean_map_add s k h, List.map_map]
    have : ((fun x => x - (mean s + k)) ∘ fun x => x + k) = fun x => x - mean s := by
      funext x
      simp only [Function.comp_apply]
      ring
    rw [this]
  simp only [calc_rms, hb]

/-- Claim C7 witness: the shift-invariance law at the concrete sequence
[1, 2] shifted by 5. -/
theorem C7_rms_shift_invariant_witness :
    calc_rms (([1, 2] : List ℝ).map (fun x => x + 5)) = calc_rms [1, 2] :=
  C7_rms_shift_invariant [1, 2] 5 (by simp)

/-- Claim C8: on a non-empty constant sequence both calc_rms and calc_peak
return exactly 0 (for every percentile argument, in particular the
default 99.5). -/
theorem C8_constant_rms_peak_zero (s : List ℝ) (x p : ℝ) (hne : s ≠ [])
    (hconst : ∀ a ∈ s, a = x) : calc_rms s = 0 ∧ calc_peak s p = 0 := by
  have hlen : (s.length : ℝ) ≠ 0 := by
    have := List.length_pos.mpr hne
    positivity
  have hmean : mean s = x := by
    rw [mean, sum_of_all_eq s x hconst]
    field_simp
  have hac : ∀ b ∈ remove_dc_bias s, b = 0 := by
    intro b hb
    rcases List.mem_map.mp hb with ⟨a, ha, rfl⟩
    rw [hmean, hconst a ha]
    ring
  constructor
  · have h2 : ∀ b ∈ (remove_dc_bias s).map (fun y => y ^ 2), b = 0 := by
      intro b hb
      rcases List.mem_map.mp hb with ⟨a, ha, rfl⟩
      rw [hac a ha]
      ring
    rw [calc_rms, mean_zeros _ h2, Real.sqrt_zero]
  · apply percentile_zeros
    intro b hb
    rcases List.mem_map.mp hb with ⟨a, ha, rfl⟩
    rw [hac a ha]
    simp

/-- Claim C8 witness: the constant-sequence law at the concrete sequence
[2, 2] with the default percentile 99.5. -/
theorem C8_constant_rms_peak_zero_witness :
    calc_rms ([2, 2] : List ℝ) = 0 ∧ calc_peak ([2, 2] : List ℝ) 99.5 = 0 :=
  C8_constant_rms_peak_zero [2, 2] 2 99.5 (by simp) (by simp)

/- Percentile nonnegativity on nonnegative data. -/

theorem percentile_nonneg (l : List ℝ) (p : ℝ) (hne : l ≠ []) (hp0 : 0 ≤ p)
    (hp1 : p ≤ 100) (hnn : ∀ a ∈ l, 0 ≤ a) : 0 ≤ percentile l p := by
  have hperm := List.perm_insertionSort (· ≤ ·) l
  have hmem : ∀ b ∈ l.insertionSort (· ≤ ·), 0 ≤ b := fun b hb =>
    hnn b (hperm.mem_iff.mp hb)
  have hlen : (l.insertionSort (· ≤ ·)).length = l.length :=
    List.length_insertionSort (· ≤ ·) l
  have hn1 : 1 ≤ l.length := List.length_pos.mpr hne
  set n := l.length with hn
  set h : ℝ := p / 100 * ((n : ℝ) - 1) with hh
  have hn1R : (1 : ℝ) ≤ (n : ℝ) := by exact_mod_cast hn1
  have hh0 : 0 ≤ h := by
    apply mul_nonneg (div_nonneg hp0 (by norm_num))
    linarith
  have hh1 : h ≤ (n : ℝ) - 1 := by
    have hp100 : p / 100 ≤ 1 := by linarith
    nlinarith
  have hgetD : ∀ i : ℕ, i < n → 0 ≤ (l.insertionSort (· ≤ ·)).getD i 0 := by
    intro i hi
    have hi' : i < (l.insertionSort (· ≤ ·)).length := by rw [hlen]; exact hi
    rw [List.getD_eq_getElem _ _ hi']
    exact hmem _ (List.getElem_mem hi')
  simp only [percentile]
  rw [← hn, ← hh]
  set j : ℕ := min (⌊h⌋).toNat (n - 1) with hj
  set j1 : ℕ := min (j + 1) (n - 1) with hj1
  have hjn : j < n := by
    have : j ≤ n - 1 := min_le_right _ _
    omega
  have hj1n : j1 < n := by
    have : j1 ≤ n - 1 := min_le_right _ _
    omega
  have haj := hgetD j hjn
  have haj1 := hgetD j1 hj1n
  by_cases hcase : (⌊h⌋).toNat ≤ n - 1
  · have hjval : j = (⌊h⌋).toNat := by rw [hj]; exact min_eq_left hcase
    have hfl0 : (0 : ℤ) ≤ ⌊h⌋ := Int.floor_nonneg.mpr hh0
    have hjR : (j : ℝ) = (⌊h⌋ : ℝ) := by
      rw [hjval]
      exact_mod_cast congrArg (Int.cast : ℤ → ℝ) (Int.toNat_of_nonneg hfl0)
    have hf0 : 0 ≤ h - (j : ℝ) := by
      rw [hjR]
      exact sub_nonneg.mpr (Int.floor_le h)
    have hf1 : h - (j : ℝ) ≤ 1 := by
      rw [hjR]
      have := Int.lt_floor_add_one h
      linarith
    nlinarith
  · have hjval : j = n - 1 := by
      rw [hj]
      exact min_eq_right (by omega)
    have hj1val : j1 = j := by
      rw [hj1, hjval]
      exact min_eq_right (by omega)
    rw [hj1val]
    nlinarith

/-- Claim C10: calc_peak is nonnegative on every non-empty signal for every
percentile in [0, 100], being a percentile of absolute values. -/
theorem C10_peak_nonneg (s : List ℝ) (p : ℝ) (hne : s ≠ []) (hp0 : 0 ≤ p)
    (hp1 : p ≤ 100) : 0 ≤ calc_peak s p := by
  refine percentile_nonneg _ p ?_ hp0 hp1 ?_
  · intro hnil
    apply hne
    have := congrArg List.length hnil
    simp only [List.length_map, remove_dc_bias, List.length_nil] at this
    exact List.length_eq_zero.mp this
  · intro a ha
    rcases List.mem_map.mp ha with ⟨b, _, rfl⟩
    exact abs_nonneg b

/-- Claim C10 witness: nonnegativity of the peak at the concrete signal
[1, 2] with percentile 50. -/
theorem C10_peak_nonneg_witness : 0 ≤ calc_peak ([1, 2] : List ℝ) 50 :=
  C10_peak_nonneg [1, 2] 50 (by simp) (by norm_num) (by norm_num)

/-- Claim C4 counterexample: on the empty sequence, calc_rms and
remove_dc_bias as the code executes them do NOT fail: np.mean of an empty
array only warns and yields NaN, so both calls return a value. -/
theorem C4_empty_not_always_terminal :
    (calc_rmsE ([] : List ℝ)).isSome = true ∧
      (remove_dc_biasE ([] : List ℝ)).isSome = true := by
  constructor
  · simp [calc_rmsE]
  · simp [remove_dc_biasE]

/-- Claim C4 (amended): on empty input only the percentile-based metrics
(calc_peak, calc_peak_to_peak) fail, because np.percentile raises on an empty
array; calc_rms returns a value (NaN) and remove_dc_bias returns an empty
array, neither call failing. -/
theorem C4_empty_input_behaviour (p : ℝ) :
    calc_peakE ([] : List ℝ) p = none ∧
      calc_peak_to_peakE ([] : List ℝ) p = none ∧
      calc_rmsE ([] : List ℝ) = some (calc_rms []) ∧
      remove_dc_biasE ([] : List ℝ) = some [] := by
  refine ⟨?_, ?_, rfl, ?_⟩
  · simp [calc_peakE, percentileE, remove_dc_bias]
  · simp [calc_peak_to_peakE, percentileE, remove_dc_bias]
  · simp [remove_dc_biasE, remove_dc_bias]

/- Evaluation helper for percentile at concrete inputs. -/

theorem percentile_eval (s : List ℝ) (p : ℝ) (srt : List ℝ)
    (hs : s.insertionSort (· ≤ ·) = srt) (n : ℕ) (hn : s.length = n) (z : ℤ)
    (hz : ⌊p / 100 * ((n : ℝ) - 1)⌋ = z) :
    percentile s p =
      srt.getD (min z.toNat (n - 1)) 0 +
        (p / 100 * ((n : ℝ) - 1) - ((min z.toNat (n - 1) : ℕ) : ℝ)) *
          (srt.getD (min (min z.toNat (n - 1) + 1) (n - 1)) 0 -
            srt.getD (min z.toNat (n - 1)) 0) := by
  simp only [percentile, hs, hn, hz]

theorem rdc_asym : remove_dc_bias ([0, 0, 0, 3] : List ℝ) =
    [-(3 / 4), -(3 / 4), -(3 / 4), 9 / 4] := by
  norm_num [remove_dc_bias, mean]

theorem sorted_asym : List.Sorted (· ≤ ·) [-(3 / 4 : ℝ), -(3 / 4), -(3 / 4), 9 / 4] := by
  simp only [List.sorted_cons, List.mem_cons, List.not_mem_nil]
  norm_num

theorem sorted_asym_abs : List.Sorted (· ≤ ·) [(3 / 4 : ℝ), 3 / 4, 3 / 4, 9 / 4] := by
  simp only [List.sorted_cons, List.mem_cons, List.not_mem_nil]
  norm_num

theorem perc_asym_75 : percentile [-(3 / 4 : ℝ), -(3 / 4), -(3 / 4), 9 / 4] 75 = 0 := by
  rw [percentile_eval _ 75 _ sorted_asym.insertionSort_eq 4 rfl 2
    (by rw [Int.floor_eq_iff]; norm_num)]
  simp only [show ((2 : ℤ)).toNat = 2 from rfl, show ((0 : ℤ)).toNat = 0 from rfl]
  norm_num [List.getD, min_self]

theorem perc_asym_25 : percentile [-(3 / 4 : ℝ), -(3 / 4), -(3 / 4), 9 / 4] 25 = -(3 / 4) := by
  rw [percentile_eval _ 25 _ sorted_asym.insertionSort_eq 4 rfl 0
    (by rw [Int.floor_eq_iff]; norm_num)]
  simp only [show ((2 : ℤ)).toNat = 2 from rfl, show ((0 : ℤ)).toNat = 0 from rfl]
  norm_num [List.getD, min_self]

theorem perc_asym_abs_75 : percentile [(3 / 4 : ℝ), 3 / 4, 3 / 4, 9 / 4] 75 = 9 / 8 := by
  rw [percentile_eval _ 75 _ sorted_asym_abs.insertionSort_eq 4 rfl 2
    (by rw [Int.floor_eq_iff]; norm_num)]
  simp only [show ((2 : ℤ)).toNat = 2 from rfl, show ((0 : ℤ)).toNat = 0 from rfl]
  norm_num [List.getD, min_self]

/-- Claim C2: calc_peak_to_peak is the signed symmetric percentile span of the
bias-removed signal, and it differs from 2·calc_peak on an asymmetric
sequence: on [0, 0, 0, 3] with percentile 75 the span is 3/4 while twice the
peak is 9/4. -/
theorem C2_peak_to_peak_span_not_twice_peak :
    (∀ (s : List ℝ) (p : ℝ), s ≠ [] →
        calc_peak_to_peak s p =
          percentile (remove_dc_bias s) p - percentile (remove_dc_bias s) (100 - p)) ∧
      calc_peak_to_peak ([0, 0, 0, 3] : List ℝ) 75 ≠
        2 * calc_peak ([0, 0, 0, 3] : List ℝ) 75 := by
  constructor
  · intro s p _
    rfl
  · have habs : (remove_dc_bias ([0, 0, 0, 3] : List ℝ)).map (fun x => |x|) =
        [(3 / 4 : ℝ), 3 / 4, 3 / 4, 9 / 4] := by
      rw [rdc_asym]
      simp only [List.map_cons, List.map_nil]
      rw [abs_of_nonpos (by norm_num), abs_of_nonneg (by norm_num : (0:ℝ) ≤ 9 / 4)]
      norm_num
    have hptp : calc_peak_to_peak ([0, 0, 0, 3] : List ℝ) 75 = 3 / 4 := by
      rw [calc_peak_to_peak, rdc_asym]
      rw [show (100 : ℝ) - 75 = 25 by norm_num, perc_asym_75, perc_asym_25]
      norm_num
    have hpk : calc_peak ([0, 0, 0, 3] : List ℝ) 75 = 9 / 8 := by
      rw [calc_peak, habs, perc_asym_abs_75]
    rw [hptp, hpk]
    norm_num

/-- Claim C2 witness: the definitional clause applied at the concrete signal
[1, 2] with the default percentile, plus the concrete divergence. -/
theorem C2_peak_to_peak_span_witness :
    (calc_peak_to_peak ([1, 2] : List ℝ) 99.5 =
        percentile (remove_dc_bias [1, 2]) 99.5 -
          percentile (remove_dc_bias [1, 2]) (100 - 99.5)) ∧
      calc_peak_to_peak ([0, 0, 0, 3] : List ℝ) 75 ≠
        2 * calc_peak ([0, 0, 0, 3] : List ℝ) 75 :=
  ⟨C2_peak_to_peak_span_not_twice_peak.1 [1, 2] 99.5 (by simp),
    C2_peak_to_peak_span_not_twice_peak.2⟩

/- Synthesizer helper lemmas. -/

theorem gen_ref_none_of_unscaled_none (p : Params) (d : ℝ) (n : ℕ)
    (h : unscaled_wave p d n = none) : generate_reference p d n = none := by
  cases hv : p.vrms_v <;> simp [generate_reference, hv, h]

theorem fmod_lt (x y : ℝ) (hy : 0 < y) : fmod x y < y := by
  have h := Int.lt_floor_add_one (x / y)
  have h2 : x < ((⌊x / y⌋ : ℝ) + 1) * y := (div_lt_iff₀ hy).mp h
  have h3 : ((⌊x / y⌋ : ℝ) + 1) * y = y * (⌊x / y⌋ : ℝ) + y := by ring
  rw [fmod]
  linarith

/-- Claim C6: a descriptor with an unrecognized family tag, or one missing a
parameter its family requires (the dimmer's duty_pct, the AM sine's
mod_freq_hz, or the freq_hz / vrms_v every family reads), makes
generate_reference fail with no arrays produced. -/
theorem C6_malformed_descriptor_fails (p : Params) (duration : ℝ) (n : ℕ) :
    (p.type ∉ (["sine", "square", "triangle", "dimmer", "sine_mod"] : List String) →
        generate_reference p duration n = none) ∧
      (p.type = "dimmer" → p.duty_pct = none → generate_reference p duration n = none) ∧
      (p.type = "sine_mod" → p.mod_freq_hz = none → generate_reference p duration n = none) ∧
      (p.freq_hz = none → generate_reference p duration n = none) ∧
      (p.vrms_v = none → generate_reference p duration n = none) := by
  refine ⟨?_, ?_, ?_, ?_, ?_⟩
  · intro ht
    apply gen_ref_none_of_unscaled_none
    simp only [List.mem_cons, List.not_mem_nil, or_false, not_or] at ht
    cases hf : p.freq_hz <;>
      simp [unscaled_wave, hf, ht.1, ht.2.1, ht.2.2.1, ht.2.2.2.1, ht.2.2.2.2]
  · intro ht hd
    apply gen_ref_none_of_unscaled_none
    cases hf : p.freq_hz <;> simp [unscaled_wave, hf, ht, hd]
  · intro ht hm
    apply gen_ref_none_of_unscaled_none
    cases hf : p.freq_hz <;> simp [unscaled_wave, hf, ht, hm]
  · intro hf
    exact gen_ref_none_of_unscaled_none _ _ _ (by simp [unscaled_wave, hf])
  · intro hv
    simp [generate_reference, hv]

/-- Claim C6 witness: generate_reference fails at the concrete malformed
descriptors — an unknown family "sawtooth", a dimmer missing duty_pct, and an
AM sine missing mod_freq_hz. -/
theorem C6_malformed_descriptor_fails_witness :
    generate_reference ⟨"sawtooth", some 60, some 0.1, none, none⟩ 1 10000 = none ∧
      generate_reference ⟨"dimmer", some 60, some 0.1, none, none⟩ 1 10000 = none ∧
      generate_reference ⟨"sine_mod", some 60, some 0.1, none, none⟩ 1 10000 = none :=
  ⟨(C6_malformed_descriptor_fails ⟨"sawtooth", some 60, some 0.1, none, none⟩ 1 10000).1
      (by decide),
    (C6_malformed_descriptor_fails ⟨"dimmer", some 60, some 0.1, none, none⟩ 1 10000).2.1
      rfl rfl,
    (C6_malformed_descriptor_fails ⟨"sine_mod", some 60, some 0.1, none, none⟩ 1 10000).2.2.1
      rfl rfl⟩

/-- Claim C5: a dimmer descriptor with duty_pct = 0 has firing angle π, so the
phase-in-half-cycle (always < π) never reaches it: the unscaled wave is all
zeros, its raw RMS is 0, and generate_reference returns the wave unscaled
(all zeros) through the documented leave-unscaled branch rather than failing. -/
theorem C5_dimmer_duty_zero_unscaled (f R duration : ℝ) (n : ℕ) :
    unscaled_wave ⟨"dimmer", some f, some R, some 0, none⟩ duration n =
        some (List.replicate n 0) ∧
      raw_rms (List.replicate n 0) = 0 ∧
      generate_reference ⟨"dimmer", some f, some R, some 0, none⟩ duration n =
        some (linspace duration n, List.replicate n 0) := by
  have hcond : ∀ x : ℝ,
      ¬ (fmod (2 * Real.pi * f * x) Real.pi ≥ Real.pi * (1 - (0 : ℝ) / 100)) := by
    intro x
    have hlt := fmod_lt (2 * Real.pi * f * x) Real.pi Real.pi_pos
    rw [show Real.pi * (1 - (0 : ℝ) / 100) = Real.pi by ring]
    exact not_le.mpr hlt
  have hmap : (linspace duration n).map (fun x =>
      if fmod (2 * Real.pi * f * x) Real.pi ≥ Real.pi * (1 - (0 : ℝ) / 100)
      then Real.sin (2 * Real.pi * f * x) else 0) = List.replicate n 0 := by
    rw [List.map_congr_left (fun x _ => if_neg (hcond x)), List.map_const',
      linspace, List.length_map, List.length_range]
  have hwave : unscaled_wave ⟨"dimmer", some f, some R, some 0, none⟩ duration n =
      some (List.replicate n 0) := by
    simp only [unscaled_wave, Option.bind_eq_bind, Option.some_bind, Option.map_some']
    rw [if_neg (by decide : ¬("dimmer" = "sine")),
      if_neg (by decide : ¬("dimmer" = "square")),
      if_neg (by decide : ¬("dimmer" = "triangle"))]
    simp only [if_true]
    exact congrArg some hmap
  have hraw : raw_rms (List.replicate n (0 : ℝ)) = 0 := by
    simp [raw_rms, mean, List.map_replicate, List.sum_replicate]
  refine ⟨hwave, hraw, ?_⟩
  simp only [generate_reference, hwave, Option.bind_eq_bind, Option.some_bind,
    Option.map_some']
  rw [hraw]
  simp

/- Scaling-step helper lemmas shared by the round-trip and pointwise-scaling
claims. -/

theorem lsum_nonneg (l : List ℝ) (h : ∀ a ∈ l, 0 ≤ a) : 0 ≤ l.sum := by
  induction l with
  | nil => simp
  | cons a l ih =>
    have ha := h a (by simp)
    have hl := ih (fun b hb => h b (by simp [hb]))
    simp only [List.sum_cons]
    linarith

theorem mean_nonneg (l : List ℝ) (h : ∀ a ∈ l, 0 ≤ a) : 0 ≤ mean l :=
  div_nonneg (lsum_nonneg l h) (Nat.cast_nonneg _)

theorem raw_rms_nonneg (w : List ℝ) : 0 ≤ raw_rms w := Real.sqrt_nonneg _

theorem sq_mean_nonneg (l : List ℝ) : 0 ≤ mean (l.map (fun x => x ^ 2)) := by
  apply mean_nonneg
  intro a ha
  rcases List.mem_map.mp ha with ⟨b, _, rfl⟩
  exact sq_nonneg b

theorem calc_rms_map_mul (l : List ℝ) (c : ℝ) (hc : 0 ≤ c) :
    calc_rms (l.map (fun x => x * c)) = c * calc_rms l := by
  have h1 : remove_dc_bias (l.map (fun x => x * c)) =
      (remove_dc_bias l).map (fun x => x * c) := by
    simp only [remove_dc_bias, mean_map_mul, List.map_map]
    apply List.map_congr_left
    intro a _
    simp only [Function.comp_apply]
    ring
  have h2 : ((remove_dc_bias l).map (fun x => x * c)).map (fun x => x ^ 2) =
      ((remove_dc_bias l).map (fun x => x ^ 2)).map (fun x => x * c ^ 2) := by
    simp only [List.map_map]
    apply List.map_congr_left
    intro a _
    simp only [Function.comp_apply]
    ring
  rw [calc_rms, h1, h2, mean_map_mul, calc_rms]
  rw [Real.sqrt_mul (sq_mean_nonneg (remove_dc_bias l)), Real.sqrt_sq hc]
  ring

theorem calc_rms_eq_raw_of_mean_zero (l : List ℝ) (h : mean l = 0) :
    calc_rms l = raw_rms l := by
  rw [calc_rms, raw_rms, remove_dc_bias, h]
  simp only [sub_zero, List.map_id']

theorem gen_eq_scaled (p : Params) (duration : ℝ) (n : ℕ) (vrms : ℝ)
    (wave : List ℝ) (t' w' : List ℝ) (hv : p.vrms_v = some vrms)
    (hw : unscaled_wave p duration n = some wave)
    (hrpos : 0 < raw_rms wave)
    (hgen : generate_reference p duration n = some (t', w')) :
    t' = linspace duration n ∧
      w' = wave.map (fun x => x * (vrms / raw_rms wave)) := by
  rw [generate_reference, hv] at hgen
  simp only [Option.bind_eq_bind, Option.some_bind] at hgen
  rw [hw] at hgen
  simp only [Option.map_some'] at hgen
  rw [if_pos hrpos] at hgen
  have hpair := Option.some.inj hgen
  exact ⟨(congrArg Prod.fst hpair).symm, (congrArg Prod.snd hpair).symm⟩

theorem getD_map_mul (l : List ℝ) (c : ℝ) (k : ℕ) :
    (l.map (fun x => x * c)).getD k 0 = l.getD k 0 * c := by
  induction l generalizing k with
  | nil => simp
  | cons a l ih =>
    cases k with
    | zero => simp
    | succ m => simpa using ih m

theorem sign_mul_of_pos (x c : ℝ) (hc : 0 < c) :
    Real.sign (x * c) = Real.sign x := by
  rcases lt_trichotomy x 0 with hx | hx | hx
  · rw [Real.sign_of_neg hx, Real.sign_of_neg (mul_neg_of_neg_of_pos hx hc)]
  · rw [hx, zero_mul]
  · rw [Real.sign_of_pos hx, Real.sign_of_pos (mul_pos hx hc)]

theorem lsum_map_range (f : ℕ → ℝ) (n : ℕ) :
    ((List.range n).map f).sum = ∑ i ∈ Finset.range n, f i := by
  induction n with
  | zero => simp
  | succ m ih =>
    rw [List.range_succ, List.map_append, List.sum_append, Finset.sum_range_succ, ih]
    simp

/- A concrete triangle scenario: f = 1, target RMS 0.03385, duration 1, three
points.  Its unscaled wave [1, -1/3, -1/3] has the nonzero sample mean 1/9. -/

def triP : Params := ⟨"triangle", some 1, some 0.03385, none, none⟩

def triWave : List ℝ := [1, -(1 / 3), -(1 / 3)]

theorem linspace_one_three : linspace 1 3 = [0, 1 / 3, 2 / 3] := by
  rw [linspace, show List.range 3 = [0, 1, 2] from rfl]
  simp only [List.map_cons, List.map_nil]
  norm_num

theorem tri_unscaled : unscaled_wave triP 1 3 = some triWave := by
  have e0 : 4 * |Int.fract ((1 : ℝ) * 0) - 0.5| - 1 = 1 := by
    rw [show (1 : ℝ) * 0 = 0 by ring, Int.fract_zero,
      show |(0 : ℝ) - 0.5| = 0.5 by rw [abs_of_nonpos] <;> norm_num]
    norm_num
  have e13 : 4 * |Int.fract ((1 : ℝ) * (1 / 3)) - 0.5| - 1 = -(1 / 3) := by
    rw [show (1 : ℝ) * (1 / 3) = 1 / 3 by ring,
      Int.fract_eq_self.mpr ⟨by norm_num, by norm_num⟩,
      show |(1 : ℝ) / 3 - 0.5| = 1 / 6 by rw [abs_of_nonpos] <;> norm_num]
    norm_num
  have e23 : 4 * |Int.fract ((1 : ℝ) * (2 / 3)) - 0.5| - 1 = -(1 / 3) := by
    rw [show (1 : ℝ) * (2 / 3) = 2 / 3 by ring,
      Int.fract_eq_self.mpr ⟨by norm_num, by norm_num⟩,
      show |(2 : ℝ) / 3 - 0.5| = 1 / 6 by rw [abs_of_nonneg] <;> norm_num]
    norm_num
  have hf : triP.freq_hz = some 1 := rfl
  have ht : triP.type = "triangle" := rfl
  rw [unscaled_wave, hf]
  simp only [Option.bind_eq_bind, Option.some_bind]
  rw [ht, if_neg (by decide : ¬("triangle" = "sine")),
    if_neg (by decide : ¬("triangle" = "square")),
    if_pos (rfl : "triangle" = "triangle")]
  rw [linspace_one_three]
  simp only [List.map_cons, List.map_nil]
  rw [e0, e13, e23]
  rfl

theorem tri_raw_val : raw_rms triWave = Real.sqrt (11 / 27) := by
  rw [raw_rms]
  congr 1
  rw [show triWave.map (fun x => x ^ 2) = [1, 1 / 9, 1 / 9] by
    rw [triWave]; simp only [List.map_cons, List.map_nil]; norm_num]
  rw [mean]
  norm_num

theorem tri_raw_pos : 0 < raw_rms triWave := by
  rw [tri_raw_val]
  exact Real.sqrt_pos.mpr (by norm_num)

theorem tri_gen : generate_reference triP 1 3 =
    some (linspace 1 3, triWave.map (fun x => x * (0.03385 / raw_rms triWave))) := by
  have hv : triP.vrms_v = some 0.03385 := rfl
  rw [generate_reference, hv]
  simp only [Option.bind_eq_bind, Option.some_bind]
  rw [tri_unscaled]
  simp only [Option.map_some']
  rw [if_pos tri_raw_pos]

/-- Claim C9: when the raw RMS is nonzero and the target RMS positive, every
output sample of generate_reference is the corresponding unscaled sample
times the single positive constant vrms/raw_rms; samples that are zero before
scaling stay exactly zero, and every sample keeps its sign. -/
theorem C9_output_is_positive_scaling (p : Params) (duration : ℝ) (n : ℕ)
    (vrms : ℝ) (wave t' w' : List ℝ) (hv : p.vrms_v = some vrms)
    (hvpos : 0 < vrms) (hw : unscaled_wave p duration n = some wave)
    (hr : raw_rms wave ≠ 0)
    (hgen : generate_reference p duration n = some (t', w')) :
    0 < vrms / raw_rms wave ∧
      w' = wave.map (fun x => x * (vrms / raw_rms wave)) ∧
      (∀ k : ℕ, wave.getD k 0 = 0 → w'.getD k 0 = 0) ∧
      (∀ k : ℕ, Real.sign (w'.getD k 0) = Real.sign (wave.getD k 0)) := by
  have hrpos : 0 < raw_rms wave := lt_of_le_of_ne (raw_rms_nonneg wave) (Ne.symm hr)
  have hcpos : 0 < vrms / raw_rms wave := div_pos hvpos hrpos
  obtain ⟨-, hw'⟩ := gen_eq_scaled p duration n vrms wave t' w' hv hw hrpos hgen
  refine ⟨hcpos, hw', ?_, ?_⟩
  · intro k hk
    rw [hw', getD_map_mul, hk, zero_mul]
  · intro k
    rw [hw', getD_map_mul, sign_mul_of_pos _ _ hcpos]

/-- Claim C9 witness: the pointwise-scaling law at the concrete triangle
scenario (f = 1, target RMS 0.03385, duration 1, n = 3). -/
theorem C9_output_is_positive_scaling_witness :
    0 < (0.03385 : ℝ) / raw_rms triWave ∧
      triWave.map (fun x => x * ((0.03385 : ℝ) / raw_rms triWave)) =
        triWave.map (fun x => x * ((0.03385 : ℝ) / raw_rms triWave)) ∧
      (∀ k : ℕ, triWave.getD k 0 = 0 →
        (triWave.map (fun x => x * ((0.03385 : ℝ) / raw_rms triWave))).getD k 0 = 0) ∧
      (∀ k : ℕ,
        Real.sign ((triWave.map (fun x => x * ((0.03385 : ℝ) / raw_rms triWave))).getD k 0) =
          Real.sign (triWave.getD k 0)) :=
  C9_output_is_positive_scaling triP 1 3 0.03385 triWave (linspace 1 3)
    (triWave.map (fun x => x * ((0.03385 : ℝ) / raw_rms triWave))) rfl
    (by norm_num) tri_unscaled (ne_of_gt tri_raw_pos) tri_gen

/- The concrete sine scenario of the spec: f = 60, target RMS 0.03385,
duration 1.0, n = 10000.  Its sample grid covers 60 whole periods, so the
sampled sine has exactly zero mean. -/

def sineP : Params := ⟨"sine", some 60, some 0.03385, none, none⟩

def sine_wave_60 : List ℝ :=
  (linspace 1 10000).map (fun x => Real.sin (2 * Real.pi * 60 * x))

theorem sine_unscaled : unscaled_wave sineP 1 10000 = some sine_wave_60 := by
  have hf : sineP.freq_hz = some 60 := rfl
  have ht : sineP.type = "sine" := rfl
  rw [unscaled_wave, hf]
  simp only [Option.bind_eq_bind, Option.some_bind]
  rw [ht, if_pos (rfl : "sine" = "sine")]
  rfl

theorem sum_sin_sixty :
    ∑ k ∈ Finset.range 10000, Real.sin (3 * Real.pi / 250 * (k : ℝ)) = 0 := by
  set z : ℂ := Complex.exp ((3 * Real.pi / 250 : ℝ) * Complex.I) with hz
  have hzk : ∀ k : ℕ, Real.sin (3 * Real.pi / 250 * (k : ℝ)) = (z ^ k).im := by
    intro k
    rw [hz, ← Complex.exp_nat_mul]
    have harg : (k : ℂ) * (((3 * Real.pi / 250 : ℝ) : ℂ) * Complex.I) =
        ((3 * Real.pi / 250 * (k : ℝ) : ℝ) : ℂ) * Complex.I := by
      push_cast
      ring
    rw [harg, Complex.exp_ofReal_mul_I_im]
  have hsum : ∑ k ∈ Finset.range 10000, Real.sin (3 * Real.pi / 250 * (k : ℝ)) =
      (∑ k ∈ Finset.range 10000, z ^ k).im := by
    rw [Complex.im_sum]
    exact Finset.sum_congr rfl (fun k _ => hzk k)
  have hz1 : z ≠ 1 := by
    intro hc
    have him : z.im = 0 := by rw [hc]; exact Complex.one_im
    rw [hz, Complex.exp_ofReal_mul_I_im] at him
    have hpos : 0 < Real.sin (3 * Real.pi / 250) := by
      apply Real.sin_pos_of_pos_of_lt_pi
      · positivity
      · have := Real.pi_pos
        linarith
    linarith [him, hpos]
  have hzN : z ^ 10000 = 1 := by
    rw [hz, ← Complex.exp_nat_mul]
    have harg : ((10000 : ℕ) : ℂ) * (((3 * Real.pi / 250 : ℝ) : ℂ) * Complex.I) =
        ((60 : ℤ) : ℂ) * (2 * ((Real.pi : ℝ) : ℂ) * Complex.I) := by
      push_cast
      ring
    rw [harg, Complex.exp_int_mul_two_pi_mul_I]
  rw [hsum, geom_sum_eq hz1, hzN]
  simp

theorem sine_wave_as_range : sine_wave_60 = (List.range 10000).map
    (fun k : ℕ => Real.sin (2 * Real.pi * 60 * ((k : ℝ) * 1 / ((10000 : ℕ) : ℝ)))) := by
  rw [sine_wave_60, linspace, List.map_map]
  rfl

theorem sine_wave_mean : mean sine_wave_60 = 0 := by
  rw [mean, sine_wave_as_range, lsum_map_range]
  have h2 : ∀ k ∈ Finset.range 10000,
      Real.sin (2 * Real.pi * 60 * ((k : ℝ) * 1 / ((10000 : ℕ) : ℝ))) =
        Real.sin (3 * Real.pi / 250 * (k : ℝ)) := by
    intro k _
    congr 1
    push_cast
    ring
  rw [Finset.sum_congr rfl h2, sum_sin_sixty]
  simp


theorem sine_wave_raw_pos : 0 < raw_rms sine_wave_60 := by
  rw [raw_rms]
  apply Real.sqrt_pos.mpr
  have h1 : sine_wave_60.map (fun x => x ^ 2) = (List.range 10000).map
      (fun k : ℕ =>
        Real.sin (2 * Real.pi * 60 * ((k : ℝ) * 1 / ((10000 : ℕ) : ℝ))) ^ 2) := by
    rw [sine_wave_as_range, List.map_map]
    rfl
  rw [mean, h1, lsum_map_range, List.length_map, List.length_range]
  apply div_pos ?_ (by norm_num)
  have h125 : Real.sin (2 * Real.pi * 60 * (((125 : ℕ) : ℝ) * 1 / ((10000 : ℕ) : ℝ))) = -1 := by
    have harg : 2 * Real.pi * 60 * (((125 : ℕ) : ℝ) * 1 / ((10000 : ℕ) : ℝ)) =
        Real.pi / 2 + Real.pi := by
      push_cast
      ring
    rw [harg, Real.sin_add, Real.sin_pi, Real.cos_pi, Real.sin_pi_div_two,
      Real.cos_pi_div_two]
    ring
  have hmem : (125 : ℕ) ∈ Finset.range 10000 := Finset.mem_range.mpr (by norm_num)
  apply Finset.sum_pos'
  · intro i _
    exact sq_nonneg _
  · refine ⟨125, hmem, ?_⟩
    rw [h125]
    norm_num

theorem sine_gen : generate_reference sineP 1 10000 =
    some (linspace 1 10000,
      sine_wave_60.map (fun x => x * (0.03385 / raw_rms sine_wave_60))) := by
  have hv : sineP.vrms_v = some 0.03385 := rfl
  rw [generate_reference, hv]
  simp only [Option.bind_eq_bind, Option.some_bind]
  rw [sine_unscaled]
  simp only [Option.map_some']
  rw [if_pos sine_wave_raw_pos]

/-- Claim C1 (amended): for every synthesizer call whose unscaled wave has
nonzero raw RMS and zero sample mean, and nonnegative target RMS, feeding the
output voltages back into calc_rms reproduces the target RMS exactly; the
concrete sine scenario (f = 60, target 0.03385, duration 1, n = 10000)
satisfies these hypotheses, so its output rms is 0.03385, within 1e-9. -/
theorem C1_round_trip_zero_mean (p : Params) (duration : ℝ) (n : ℕ)
    (vrms : ℝ) (wave t' w' : List ℝ) (hv : p.vrms_v = some vrms)
    (hv0 : 0 ≤ vrms) (hw : unscaled_wave p duration n = some wave)
    (hmean : mean wave = 0) (hr : raw_rms wave ≠ 0)
    (hgen : generate_reference p duration n = some (t', w')) :
    calc_rms w' = vrms := by
  have hrpos : 0 < raw_rms wave := lt_of_le_of_ne (raw_rms_nonneg wave) (Ne.symm hr)
  obtain ⟨-, hw'⟩ := gen_eq_scaled p duration n vrms wave t' w' hv hw hrpos hgen
  rw [hw', calc_rms_map_mul wave _ (div_nonneg hv0 (raw_rms_nonneg wave)),
    calc_rms_eq_raw_of_mean_zero wave hmean]
  field_simp

/-- Claim C1 witness: the concrete sine scenario of the spec — its sampled
wave has zero mean and nonzero raw RMS, and the output's own rms equals
0.03385 within 1e-9 (indeed exactly). -/
theorem C1_round_trip_zero_mean_witness :
    mean sine_wave_60 = 0 ∧ raw_rms sine_wave_60 ≠ 0 ∧
      |calc_rms (sine_wave_60.map
          (fun x => x * ((0.03385 : ℝ) / raw_rms sine_wave_60))) - 0.03385| < 1e-9 := by
  have hne : raw_rms sine_wave_60 ≠ 0 := ne_of_gt sine_wave_raw_pos
  have h := C1_round_trip_zero_mean sineP 1 10000 0.03385 sine_wave_60
    (linspace 1 10000)
    (sine_wave_60.map (fun x => x * ((0.03385 : ℝ) / raw_rms sine_wave_60))) rfl
    (by norm_num) sine_unscaled sine_wave_mean hne sine_gen
  refine ⟨sine_wave_mean, hne, ?_⟩
  rw [h]
  norm_num

/-- Claim C1 counterexample: the triangle descriptor f = 1, target RMS
0.03385, synthesized over duration 1 with 3 points has nonzero raw RMS, yet
the rms of the synthesizer's own output misses the target by more than 1e-4
(far beyond floating-point tolerance): calc_rms removes the wave's nonzero
sample mean 1/9, which the raw-RMS normalization kept. -/
theorem C1_round_trip_fails_on_nonzero_mean :
    raw_rms triWave ≠ 0 ∧
      unscaled_wave triP 1 3 = some triWave ∧
      generate_reference triP 1 3 =
        some (linspace 1 3,
          triWave.map (fun x => x * ((0.03385 : ℝ) / raw_rms triWave))) ∧
      |calc_rms (triWave.map (fun x => x * ((0.03385 : ℝ) / raw_rms triWave))) -
          0.03385| > 1e-4 := by
  refine ⟨ne_of_gt tri_raw_pos, tri_unscaled, tri_gen, ?_⟩
  have hmean : mean triWave = 1 / 9 := by
    rw [triWave, mean]
    norm_num
  have hrdc : remove_dc_bias triWave = [8 / 9, -(4 / 9), -(4 / 9)] := by
    rw [remove_dc_bias, hmean, triWave]
    simp only [List.map_cons, List.map_nil]
    norm_num
  have hsq : ([(8 : ℝ) / 9, -(4 / 9), -(4 / 9)].map (fun x => x ^ 2)) =
      [64 / 81, 16 / 81, 16 / 81] := by
    simp only [List.map_cons, List.map_nil]
    norm_num
  have hmean2 : mean [(64 : ℝ) / 81, 16 / 81, 16 / 81] = 32 / 81 := by
    rw [mean]
    norm_num
  have hcalc : calc_rms triWave = Real.sqrt (32 / 81) := by
    rw [calc_rms, hrdc, hsq, hmean2]
  have hscaled :
      calc_rms (triWave.map (fun x => x * ((0.03385 : ℝ) / raw_rms triWave))) =
        (0.03385 / Real.sqrt (11 / 27)) * Real.sqrt (32 / 81) := by
    rw [calc_rms_map_mul triWave _ (div_nonneg (by norm_num) (raw_rms_nonneg triWave)),
      hcalc, tri_raw_val]
  have hB : (0 : ℝ) < Real.sqrt (11 / 27) := Real.sqrt_pos.mpr (by norm_num)
  have hAB : Real.sqrt (32 / 81) ≤ 0.986 * Real.sqrt (11 / 27) := by
    have h986 : (0.986 : ℝ) * Real.sqrt (11 / 27) =
        Real.sqrt (0.986 ^ 2 * (11 / 27)) := by
      rw [Real.sqrt_mul (by positivity) (11 / 27), Real.sqrt_sq (by norm_num)]
    rw [h986]
    apply Real.sqrt_le_sqrt
    norm_num
  have hv_le : (0.03385 / Real.sqrt (11 / 27)) * Real.sqrt (32 / 81) ≤
      0.03385 * 0.986 := by
    rw [div_mul_eq_mul_div, div_le_iff₀ hB]
    nlinarith [hAB]
  rw [hscaled]
  rw [abs_of_neg (by nlinarith [hv_le] :
    (0.03385 / Real.sqrt (11 / 27)) * Real.sqrt (32 / 81) - 0.03385 < 0)]
  nlinarith [hv_le]

/-- Claim C3: vrms_to_current is the pure linear scaling
vrms * i_primary / CT_FS_VOLTAGE with no clamping or saturation, and
vrms_to_current 0.333 100 = 100 exactly. -/
theorem C3_vrms_to_current_linear :
    (∀ v i : ℝ, vrms_to_current v i = v * i / CT_FS_VOLTAGE) ∧
      vrms_to_current 0.333 100 = 100 := by
  refine ⟨fun _ _ => rfl, ?_⟩
  norm_num [vrms_to_current, CT_FS_VOLTAGE]

end

end ADS1x15
